import Mathlib

/-!
Verification of femtoGPT (`src/gpt.rs`).

The program builds a GPT-style computation graph (`GPT::new`), trains it with
data-parallel workers whose gradients are averaged into a template graph
(`GPT::train`), reconciles embedding-table gradients from per-position input
gradients (`unembed`), and samples autoregressively with a sliding context
window (`GPT::infer`, `select`).

Numeric tensors are modelled over `ℚ` with flat `List ℚ` buffers (elementwise
operations act independently per element, so a flat view is faithful for the
elementwise claims).  Fallible operations return `Option` / `Except`.
The tensor kernels (`crate::funcs`, `crate::tensor`) are not part of the
visible source; where a claim depends on them they are modelled from the
spec, with a doc comment saying so.
-/

namespace FemtoGPT

/-- Elementwise addition of two equal-shape flat tensors (the `Add` kernel on
equal shapes). -/
def tAdd (a b : List ℚ) : List ℚ := List.zipWith (· + ·) a b

/-- gpt.rs 326-329: `avg` starts as `Tensor::scalar(0.)` and each worker
gradient is added; the scalar-0 start broadcasts to the gradient's shape, so
for equal-shape summands the fold starts from the all-zero tensor of size
`n`. -/
def sumTensors (n : Nat) (gs : List (List ℚ)) : List ℚ :=
  gs.foldl tAdd (List.replicate n 0)

/-- gpt.rs 325-331: per parameter id, sum the worker gradients and apply
`map_values(|f| f / graphs.len())`. -/
def aggGrad (n : Nat) (gs : List (List ℚ)) : List ℚ :=
  (sumTensors n gs).map (fun f => f / (gs.length : ℚ))

/-- The spec's elementwise mean of a family of rows: at index `i`, the sum of
the rows' entries at `i` divided by the number of rows. -/
def meanSpec (n : Nat) (gs : List (List ℚ)) : List ℚ :=
  (List.range n).map (fun i => (gs.map (fun g => g.getD i 0)).sum / (gs.length : ℚ))

theorem tAdd_length (a b : List ℚ) : (tAdd a b).length = min a.length b.length := by
  simp [tAdd]

theorem tAdd_getD (a b : List ℚ) (i : Nat) (h : a.length = b.length) :
    (tAdd a b).getD i 0 = a.getD i 0 + b.getD i 0 := by
  induction a generalizing b i with
  | nil =>
    cases b with
    | nil => simp [tAdd]
    | cons x xs => simp at h
  | cons x xs ih =>
    cases b with
    | nil => simp at h
    | cons y ys =>
      cases i with
      | zero => simp [tAdd]
      | succ j =>
        simp only [tAdd, List.zipWith_cons_cons, List.getD_cons_succ]
        exact ih ys j (by simpa using h)

theorem foldl_tAdd_length (gs : List (List ℚ)) (acc : List ℚ)
    (h : ∀ g ∈ gs, g.length = acc.length) :
    (gs.foldl tAdd acc).length = acc.length := by
  induction gs generalizing acc with
  | nil => rfl
  | cons g gs ih =>
    have hg : g.length = acc.length := h g (by simp)
    have hlen : (tAdd acc g).length = acc.length := by
      simp [tAdd_length, hg]
    rw [List.foldl_cons, ih (tAdd acc g) (fun g' hg' => by
      rw [hlen]; exact h g' (by simp [hg']))]
    exact hlen

theorem foldl_tAdd_getD (gs : List (List ℚ)) (acc : List ℚ) (i : Nat)
    (h : ∀ g ∈ gs, g.length = acc.length) :
    (gs.foldl tAdd acc).getD i 0 = acc.getD i 0 + (gs.map (fun g => g.getD i 0)).sum := by
  induction gs generalizing acc with
  | nil => simp
  | cons g gs ih =>
    have hg : g.length = acc.length := h g (by simp)
    have hlen : (tAdd acc g).length = acc.length := by
      simp [tAdd_length, hg]
    rw [List.foldl_cons, ih (tAdd acc g) (fun g' hg' => by
      rw [hlen]; exact h g' (by simp [hg'])), tAdd_getD acc g i hg.symm]
    simp [add_assoc]

theorem getD_replicate_zero (n i : Nat) : (List.replicate n (0 : ℚ)).getD i 0 = 0 := by
  induction n generalizing i with
  | zero => simp
  | succ m ih =>
    cases i with
    | zero => simp [List.replicate_succ]
    | succ j => simpa [List.replicate_succ] using ih j

theorem sumTensors_getD (n : Nat) (gs : List (List ℚ)) (i : Nat)
    (h : ∀ g ∈ gs, g.length = n) :
    (sumTensors n gs).getD i 0 = (gs.map (fun g => g.getD i 0)).sum := by
  unfold sumTensors
  rw [foldl_tAdd_getD gs (List.replicate n 0) i (by simpa using h)]
  simp [getD_replicate_zero]

theorem sumTensors_length (n : Nat) (gs : List (List ℚ))
    (h : ∀ g ∈ gs, g.length = n) :
    (sumTensors n gs).length = n := by
  unfold sumTensors
  rw [foldl_tAdd_length gs (List.replicate n 0) (by simpa using h)]
  simp

/-- C2: for every training step with batch size `B ≥ 1` and every parameter
id, the gradient loaded into the template graph (gpt.rs 322-336) equals the
elementwise mean over the `B` worker graphs of that id's gradient tensor: at
each element, the sum of the `B` values divided by `B`. -/
theorem claim_C2_aggregated_grad_is_mean (n : Nat) (gs : List (List ℚ))
    (hlen : ∀ g ∈ gs, g.length = n) (hB : 1 ≤ gs.length) :
    aggGrad n gs = meanSpec n gs := by
  have hsl : (sumTensors n gs).length = n := sumTensors_length n gs hlen
  apply List.ext_getElem
  · simp [aggGrad, meanSpec, hsl]
  · intro i h1 h2
    have hi : i < n := by simpa [aggGrad, hsl] using h1
    simp only [aggGrad, meanSpec, List.getElem_map, List.getElem_range]
    rw [← List.getD_eq_getElem (sumTensors n gs) 0 (by rw [hsl]; exact hi),
      sumTensors_getD n gs i hlen]

/-- Witness for C2 at a concrete batch: two workers with gradients
`[1, 3]` and `[3, 5]`; the aggregated gradient is the elementwise mean. -/
theorem claim_C2_witness :
    aggGrad 2 [[1, 3], [3, 5]] = meanSpec 2 [[1, 3], [3, 5]] :=
  claim_C2_aggregated_grad_is_mean 2 [[1, 3], [3, 5]] (by decide) (by decide)

/-! ## Training step error propagation (gpt.rs 278-354)

The worker closure (gpt.rs 282-318) is a `Result`-returning computation:
the `?` on `embed`, `forward`, `backward_all` and the two `unembed` calls
makes any failure the worker's result.  `collect::<Result<Vec<_>, _>>()?`
then aborts the whole step at the first failing worker, before any gradient
is loaded into the template graph, before the optimizer step, and before any
checkpoint save. -/

/-- Collecting a list of fallible worker results into a fallible list, as
`collect::<Result<Vec<_>, _>>()` does: the first error aborts. -/
def collectE {ε α : Type} : List (Except ε α) → Except ε (List α)
  | [] => Except.ok []
  | Except.error e :: _ => Except.error e
  | Except.ok a :: rest => (collectE rest).map (fun l => a :: l)

/-- The template graph's state that a training step can affect: the gradient
buffers of the parameters, the optimizer's step counter, and the number of
checkpoints written. -/
structure TemplateG where
  grads : List (List ℚ)
  optStep : Nat
  saves : Nat
deriving DecidableEq

/-- One training step of `GPT::train` (gpt.rs 278-354) over the template
state, abstracting each worker to its fallible result: on success a list of
per-parameter gradient tensors together with the scalar loss.  On the success
path the step loads the cross-worker averaged gradients (`aggGrad`) for each
of the `P` parameters, performs the optimizer update (stepping the counter),
and saves a checkpoint when `stepIdx % 50 = 0`. -/
def trainStep {ε : Type} (P n : Nat) (t : TemplateG) (stepIdx : Nat)
    (workers : List (Except ε (List (List ℚ) × ℚ))) : Except ε TemplateG :=
  match collectE workers with
  | Except.error e => Except.error e
  | Except.ok results =>
    let graphs := results.map Prod.fst
    let newGrads := (List.range P).map (fun p => aggGrad n (graphs.map (fun g => g.getD p [])))
    Except.ok
      { grads := newGrads
        optStep := t.optStep + 1
        saves := if stepIdx % 50 = 0 then t.saves + 1 else t.saves }

theorem collectE_error_of_mem {ε α : Type} (ws : List (Except ε α)) (e : ε)
    (h : Except.error e ∈ ws) :
    ∃ e', collectE ws = Except.error e' ∧ Except.error e' ∈ ws := by
  induction ws with
  | nil => simp at h
  | cons w rest ih =>
    cases w with
    | error e0 => exact ⟨e0, rfl, by simp⟩
    | ok a =>
      have hmem : Except.error e ∈ rest := by
        rcases List.mem_cons.mp h with h1 | h1
        · exact absurd h1 (by simp)
        · exact h1
      obtain ⟨e', he', hm⟩ := ih hmem
      refine ⟨e', ?_, by simp [hm]⟩
      simp [collectE, he', Except.map]

/-- C9: if any worker of a training step returns an error, the step
propagates a worker's error and produces no updated template state: the
averaged gradients are not loaded, the optimizer counter is not stepped, and
no checkpoint is counted (the `Except.error` result carries no `TemplateG`). -/
theorem claim_C9_worker_error_aborts_step {ε : Type} (P n : Nat) (t : TemplateG)
    (stepIdx : Nat) (ws : List (Except ε (List (List ℚ) × ℚ))) (e : ε)
    (h : Except.error e ∈ ws) :
    ∃ e', trainStep P n t stepIdx ws = Except.error e' ∧ Except.error e' ∈ ws := by
  obtain ⟨e', he', hm⟩ := collectE_error_of_mem ws e h
  exact ⟨e', by simp [trainStep, he'], hm⟩

/-- Witness for C9: a two-worker step whose second worker failed; the step
returns an error that is one of the workers' errors. -/
theorem claim_C9_witness :
    ∃ e', trainStep 1 1 ⟨[[0]], 0, 0⟩ 0
        [Except.ok ([[1]], 0), Except.error 7] = Except.error e' ∧
      Except.error e' ∈ [Except.ok ([[(1 : ℚ)]], (0 : ℚ)), Except.error 7] :=
  claim_C9_worker_error_aborts_step 1 1 ⟨[[0]], 0, 0⟩ 0
    [Except.ok ([[1]], 0), Except.error 7] 7 (by simp)

/-! ## Causal attention mask (gpt.rs 145-149)

`Mask::new(!Tensor::<bool>::tril(num_tokens), f32::NEG_INFINITY)` followed by
`Softmax`.  The kernels live in `crate::tensor` / `crate::funcs`, which are
not part of the visible source, so they are modelled from the spec. -/

/-- Modelled from the spec: `Tensor::<bool>::tril(n)` (crate::tensor, not
under src/) is the lower-triangular boolean matrix, true at `(i, j)` exactly
when `j ≤ i`. -/
def tril (n : Nat) (i j : Nat) : Bool := decide (j ≤ i)

/-- The mask argument built at gpt.rs 146: `!tril(num_tokens)`, true exactly
at the strictly-future entries `j > i`. -/
def causalMask (n : Nat) (i j : Nat) : Bool := ! tril n i j

/-- The mask used by layer `l`, head `h`: gpt.rs rebuilds the same expression
`!tril(num_tokens)` inside the head loop for every layer and head. -/
def headMask (n l h : Nat) : Nat → Nat → Bool := causalMask n

/-- Modelled from the spec: the `Mask` kernel (crate::funcs, not under src/)
replaces entries where the mask is true with `-∞`; `-∞` is modelled as
`none`. -/
def maskedScore (n : Nat) (kq : Nat → Nat → ℚ) (i j : Nat) : Option ℚ :=
  if causalMask n i j then none else some (kq i j)

/-- Modelled from the spec: the row-wise `Softmax` kernel (crate::funcs, not
under src/) turns scores into a probability distribution with positive
exponential weights; a `-∞` entry has weight `exp(-∞) = 0`.  The exponential
is an arbitrary parameter `expf` (everywhere positive in the theorems). -/
def softWeight (expf : ℚ → ℚ) : Option ℚ → ℚ
  | none => 0
  | some x => expf x

/-- The attention probability from position `i` to position `j` after the
mask and the row-wise softmax over the `n` columns. -/
def attenProb (expf : ℚ → ℚ) (n : Nat) (kq : Nat → Nat → ℚ) (i j : Nat) : ℚ :=
  softWeight expf (maskedScore n kq i j) /
    (Finset.range n).sum (fun k => softWeight expf (maskedScore n kq i k))

/-- C3: for every layer and head, the masked softmaxed attention matrix
assigns exactly zero probability from position `i` to any strictly later
position `j > i` (the row's normalizer is positive, so the row is a genuine
distribution); and the mask is the same function of `T` for every layer and
head. -/
theorem claim_C3_causal_mask (expf : ℚ → ℚ) (hexp : ∀ x, 0 < expf x)
    (n : Nat) (kq : Nat → Nat → ℚ) (i j l h l' h' : Nat)
    (hi : i < n) (hj : j < n) (hij : i < j) :
    attenProb expf n kq i j = 0 ∧
      headMask n l h = headMask n l' h' ∧
      0 < (Finset.range n).sum (fun k => softWeight expf (maskedScore n kq i k)) := by
  refine ⟨?_, rfl, ?_⟩
  · have hmask : causalMask n i j = true := by
      simp [causalMask, tril, Nat.not_le.mpr hij]
    simp [attenProb, maskedScore, hmask, softWeight]
  · apply Finset.sum_pos'
    · intro k _
      by_cases hk : causalMask n i k
      · simp [maskedScore, hk, softWeight]
      · simp only [maskedScore, hk, if_false, softWeight]
        exact le_of_lt (hexp _)
    · refine ⟨i, Finset.mem_range.mpr hi, ?_⟩
      have hmask : causalMask n i i = false := by
        simp [causalMask, tril]
      simp [maskedScore, hmask, softWeight]
      exact hexp _

/-- Witness for C3 at `T = 2`, constant scores, constant weight function:
position 0 assigns zero probability to position 1, the mask agrees between
layer 0 / head 0 and layer 1 / head 3, and the normalizer is positive. -/
theorem claim_C3_witness :
    attenProb (fun _ => 1) 2 (fun _ _ => 0) 0 1 = 0 ∧
      headMask 2 0 0 = headMask 2 1 3 ∧
      0 < (Finset.range 2).sum
        (fun k => softWeight (fun _ => 1) (maskedScore 2 (fun _ _ => 0) 0 k)) :=
  claim_C3_causal_mask (fun _ => 1) (fun x => one_pos) 2 (fun _ _ => 0) 0 1 0 0 1 3
    (by decide) (by decide) (by decide)

/-! ## Token selection (gpt.rs 74-91)

`select` softmaxes the logits row, enumerates the probabilities, sorts them
(stably) ascending by the quantized key `(p * 1000.) as usize`, draws
`dice ∈ [0, temperature)`, and scans the sorted list in reverse accumulating
probability mass, returning the first id whose accumulated mass exceeds the
draw; if the scan exhausts the list it panics (modelled as `none`). -/

/-- Modelled from the spec: the 1-D `Softmax` (crate::funcs, not under src/)
normalizes a logits row into a probability distribution with positive
exponential weights `expf`. -/
def softmaxRow (expf : ℚ → ℚ) (row : List ℚ) : List ℚ :=
  row.map (fun x => expf x / (row.map expf).sum)

/-- gpt.rs 81: the sort key `(b * 1000.) as usize` — truncation of the
thousandfold probability (saturating at zero from below, as the float-to-
usize cast does). -/
def quantKey (q : ℚ) : Nat := (⌊q * 1000⌋).toNat

/-- Stable insertion of an element into a key-sorted list: the new element
goes before the first strictly-later-inserted element whose key is not
smaller. -/
def insertByKey {α : Type} (key : α → Nat) (a : α) : List α → List α
  | [] => [a]
  | b :: bs => if key a ≤ key b then a :: b :: bs else b :: insertByKey key a bs

/-- Stable ascending sort by key; `Vec::sort_by_key` is a stable sort, and
the output of a stable sort by a fixed key is unique, so any stable sort is
a faithful model. -/
def sortByKey {α : Type} (key : α → Nat) : List α → List α
  | [] => []
  | a :: as => insertByKey key a (sortByKey key as)

/-- gpt.rs 83-89: scan the (id, probability) list, accumulating mass, and
return the first id whose accumulated mass strictly exceeds the draw. -/
def scanAccum (dice : ℚ) : List (Nat × ℚ) → ℚ → Option Nat
  | [], _ => none
  | (id, t) :: rest, accum =>
    if dice < accum + t then some id else scanAccum dice rest (accum + t)

/-- The cumulative-probability selection over an already-normalized row:
enumerate, stable-sort ascending by the quantized key, scan in reverse. -/
def selectScan (probs : List ℚ) (dice : ℚ) : Option Nat :=
  scanAccum dice ((sortByKey (fun p => quantKey p.2) probs.enum).reverse) 0

/-- gpt.rs 74-91 `select`: softmax the logits row, then run the cumulative
scan with the drawn value `dice ∈ [0, temperature)`.  The final `panic!()` is
modelled as `none`. -/
def select (expf : ℚ → ℚ) (logits : List ℚ) (dice : ℚ) : Option Nat :=
  selectScan (softmaxRow expf logits) dice

theorem insertByKey_perm {α : Type} (key : α → Nat) (a : α) (l : List α) :
    List.Perm (insertByKey key a l) (a :: l) := by
  induction l with
  | nil => exact List.Perm.refl _
  | cons b bs ih =>
    by_cases hk : key a ≤ key b
    · simp [insertByKey, hk]
    · simp only [insertByKey, hk, if_false]
      exact ((ih.cons b).trans (List.Perm.swap a b bs))

theorem sortByKey_perm {α : Type} (key : α → Nat) (l : List α) :
    List.Perm (sortByKey key l) l := by
  induction l with
  | nil => exact List.Perm.refl _
  | cons a as ih =>
    exact (insertByKey_perm key a (sortByKey key as)).trans (ih.cons a)

theorem scanAccum_isSome (dice : ℚ) (l : List (Nat × ℚ)) (accum : ℚ)
    (hle : accum ≤ dice) (hlt : dice < accum + (l.map Prod.snd).sum) :
    (scanAccum dice l accum).isSome = true := by
  induction l generalizing accum with
  | nil =>
    exfalso
    rw [List.map_nil, List.sum_nil, add_zero] at hlt
    exact absurd hlt (not_lt.mpr hle)
  | cons p rest ih =>
    obtain ⟨id, t⟩ := p
    by_cases hd : dice < accum + t
    · simp [scanAccum, hd]
    · simp only [scanAccum, hd, if_false]
      apply ih (accum + t) (not_lt.mp hd)
      simpa [add_assoc] using hlt

theorem softmaxRow_sum (expf : ℚ → ℚ) (hexp : ∀ x, 0 < expf x)
    (row : List ℚ) (hne : row ≠ []) :
    (softmaxRow expf row).sum = 1 := by
  have hS : 0 < (row.map expf).sum := by
    apply List.sum_pos
    · intro x hx
      obtain ⟨y, _, rfl⟩ := List.mem_map.mp hx
      exact hexp y
    · simpa using hne
  have : (softmaxRow expf row).sum = (row.map expf).sum / (row.map expf).sum := by
    unfold softmaxRow
    simp only [div_eq_mul_inv]
    rw [← List.sum_map_mul_right]
  rw [this, div_self (ne_of_gt hS)]

/-- The scanned list is a permutation of the enumerated probabilities, so its
total mass is the row's total mass. -/
theorem selectScan_mass (probs : List ℚ) :
    (((sortByKey (fun p => quantKey p.2) probs.enum).reverse).map Prod.snd).sum
      = probs.sum := by
  have hperm : List.Perm ((sortByKey (fun p => quantKey p.2) probs.enum).reverse)
      probs.enum :=
    (List.reverse_perm _).trans (sortByKey_perm _ _)
  rw [(hperm.map Prod.snd).sum_eq]
  simp [List.enum_map_snd]

/-- C8: for every nonempty logits row and every temperature `0 < τ ≤ 1`, the
cumulative-probability scan returns some id before exhausting all ids (the
`panic!()` branch is unreachable), because the draw `d < τ ≤ 1` and the
softmax probabilities sum to 1; for `τ > 1` the scan can exhaust all ids, as
the concrete single-token row with draw `d = 2` shows. -/
theorem claim_C8_scan_never_exhausts (expf : ℚ → ℚ) (hexp : ∀ x, 0 < expf x)
    (logits : List ℚ) (hne : logits ≠ []) (tau dice : ℚ)
    (htau : tau ≤ 1) (hd0 : 0 ≤ dice) (hdt : dice < tau) :
    (select expf logits dice).isSome = true ∧
      select (fun _ => (1 : ℚ)) [0] 2 = none := by
  constructor
  · unfold select selectScan
    apply scanAccum_isSome dice _ 0 hd0
    rw [selectScan_mass, softmaxRow_sum expf hexp logits hne]
    calc dice < tau := hdt
      _ ≤ 1 := htau
      _ = 0 + 1 := by ring
  · norm_num [select, selectScan, softmaxRow, List.enum, List.enumFrom,
      sortByKey, insertByKey, scanAccum]

/-- Witness for C8: the scan succeeds on the one-entry row `[3]` with
`τ = 1`, `d = 1/2`. -/
theorem claim_C8_witness :
    (select (fun _ => (1 : ℚ)) [3] (1/2)).isSome = true ∧
      select (fun _ => (1 : ℚ)) [0] 2 = none :=
  claim_C8_scan_never_exhausts (fun _ => 1) (fun x => one_pos) [3] (by simp)
    1 (1/2) le_rfl (by norm_num) (by norm_num)

theorem quantKey_fifth : quantKey (1/5 : ℚ) = 200 := by
  unfold quantKey
  rw [show (1/5 : ℚ) * 1000 = ((200 : ℤ) : ℚ) by norm_num, Int.floor_intCast]
  rfl

theorem quantKey_two_fifths : quantKey (2/5 : ℚ) = 400 := by
  unfold quantKey
  rw [show (2/5 : ℚ) * 1000 = ((400 : ℤ) : ℚ) by norm_num, Int.floor_intCast]
  rfl

theorem quantKey_zero : quantKey (0 : ℚ) = 0 := by
  unfold quantKey
  rw [show (0 : ℚ) * 1000 = ((0 : ℤ) : ℚ) by norm_num, Int.floor_intCast]
  rfl

theorem quantKey_one : quantKey (1 : ℚ) = 1000 := by
  unfold quantKey
  rw [show (1 : ℚ) * 1000 = ((1000 : ℤ) : ℚ) by norm_num, Int.floor_intCast]
  rfl

/-- C7 (as stated) is false: `select` at temperature 1 on the one-hot logits
row `[0, 0, 1, 0]` does not return id 2 for every draw in `[0, 1)`.  With the
positive weight function `1 + x²` the softmax probability of id 2 is
`2/5 < 1`, and the draw `9/10` walks past id 2 and returns id 0. -/
theorem claim_C7_counterexample :
    ¬ (∀ expf : ℚ → ℚ, (∀ x, 0 < expf x) →
        ∀ dice : ℚ, 0 ≤ dice → dice < 1 →
          select expf [0, 0, 1, 0] dice = some 2) := by
  intro hclaim
  have h0 := hclaim (fun x => 1 + x * x)
    (fun x => by show (0 : ℚ) < 1 + x * x; nlinarith [mul_self_nonneg x])
    (9/10) (by norm_num) (by norm_num)
  have hsm : softmaxRow (fun x : ℚ => 1 + x * x) [0, 0, 1, 0] = [1/5, 1/5, 2/5, 1/5] := by
    unfold softmaxRow
    norm_num
  have h1 : select (fun x : ℚ => 1 + x * x) [0, 0, 1, 0] (9/10) = some 0 := by
    unfold select
    rw [hsm]
    norm_num [selectScan, List.enum, List.enumFrom, sortByKey, insertByKey,
      scanAccum, quantKey_fifth, quantKey_two_fifths]
  rw [h1] at h0
  simp at h0

/-- C7 amended: the deterministic-return property holds of the probability
row the cumulative scan consumes, not of a one-hot logits row: when the
normalized distribution is one-hot at id 2 (probability exactly 1), the scan
returns id 2 for every draw in `[0, 1)`. -/
theorem claim_C7_amended_onehot_distribution (dice : ℚ)
    (h0 : 0 ≤ dice) (h1 : dice < 1) :
    selectScan [0, 0, 1, 0] dice = some 2 := by
  have hs : (sortByKey (fun p => quantKey p.2) (List.enum [(0 : ℚ), 0, 1, 0])).reverse
      = [(2, 1), (3, 0), (1, 0), (0, 0)] := by
    norm_num [List.enum, List.enumFrom, sortByKey, insertByKey,
      quantKey_zero, quantKey_one]
  unfold selectScan
  rw [hs]
  unfold scanAccum
  rw [if_pos (by linarith)]

/-- Witness for the amended C7 at the concrete draw `1/2`. -/
theorem claim_C7_amended_witness : selectScan [0, 0, 1, 0] (1/2) = some 2 :=
  claim_C7_amended_onehot_distribution (1/2) (by norm_num) (by norm_num)

/-! ## Autoregressive generation window (gpt.rs 358-395)

`infer` keeps a window `context` of length `num_tokens = T`, a cursor `cnt`
starting at the prompt length, and the produced sequence `chs` starting at
the prompt.  Each iteration selects a next token from the logits row at
index `cnt - 1`, appends it to `chs`, and writes it into the window: when
the window is full (`cnt == T`) it first drops the oldest token, appends a
zero pad and decrements `cnt`. -/

structure InferState where
  context : List Nat
  cnt : Nat
  chs : List Nat
deriving DecidableEq

/-- gpt.rs 366-368, 375: `cnt = prompt.len()`, `context = vec![0; T]` with
the prompt copied into its head (defined when the prompt fits), and the
output sequence initialized to the prompt. -/
def inferInit (T : Nat) (prompt : List Nat) : InferState :=
  { context := prompt ++ List.replicate (T - prompt.length) 0
    cnt := prompt.length
    chs := prompt }

/-- gpt.rs 384-392: one generation step once the next token has been
selected: push it onto the output, and if the window is full
(`cnt == num_tokens`) remove the oldest entry, push a zero pad and decrement
the cursor; then write the token at the cursor and advance the cursor. -/
def inferStep (T : Nat) (s : InferState) (next : Nat) : InferState :=
  let context := if s.cnt = T then s.context.drop 1 ++ [0] else s.context
  let cnt := if s.cnt = T then s.cnt - 1 else s.cnt
  { context := context.set cnt next
    cnt := cnt + 1
    chs := s.chs ++ [next] }

/-- The whole generation loop, abstracted over the list of tokens the
selection procedure produces. -/
def inferRun (T : Nat) (prompt : List Nat) (ts : List Nat) : InferState :=
  ts.foldl (inferStep T) (inferInit T prompt)

/-- The sliding-window invariant: the window has length `T`, the cursor is
in `[1, T]`, no more tokens are claimed than produced, and positions
`[0, cnt)` of the window hold exactly the `cnt` most recently produced
tokens, in order. -/
def InferInv (T : Nat) (s : InferState) : Prop :=
  s.context.length = T ∧ 1 ≤ s.cnt ∧ s.cnt ≤ T ∧ s.cnt ≤ s.chs.length ∧
    s.context.take s.cnt = s.chs.drop (s.chs.length - s.cnt)

theorem take_succ_set {α : Type} (l : List α) (n : Nat) (a : α) (h : n < l.length) :
    (l.set n a).take (n + 1) = l.take n ++ [a] := by
  induction l generalizing n with
  | nil => simp at h
  | cons x xs ih =>
    cases n with
    | zero => simp
    | succ m =>
      rw [List.set_cons_succ, List.take_succ_cons, List.take_succ_cons,
        ih m (by simpa using h)]
      simp

theorem inferStep_full (T : Nat) (s : InferState) (next : Nat) (h : s.cnt = T) :
    inferStep T s next =
      { context := (s.context.drop 1 ++ [0]).set (s.cnt - 1) next
        cnt := s.cnt - 1 + 1
        chs := s.chs ++ [next] } := by
  simp only [inferStep]
  rw [if_pos h, if_pos h]

theorem inferStep_notfull (T : Nat) (s : InferState) (next : Nat) (h : ¬ s.cnt = T) :
    inferStep T s next =
      { context := s.context.set s.cnt next
        cnt := s.cnt + 1
        chs := s.chs ++ [next] } := by
  simp only [inferStep]
  rw [if_neg h, if_neg h]

theorem inferStep_inv (T : Nat) (s : InferState) (next : Nat)
    (hinv : InferInv T s) : InferInv T (inferStep T s next) := by
  obtain ⟨hlen, hone, hT, hchs, hwin⟩ := hinv
  by_cases hfull : s.cnt = T
  · have hT1 : 1 ≤ T := hfull ▸ hone
    have hd1 : (s.context.drop 1 ++ [0]).length = T := by
      simp [hlen]
      omega
    have hctx : s.context = s.chs.drop (s.chs.length - T) := by
      have h2 : s.context.take s.cnt = s.context := by
        rw [hfull, ← hlen]
        exact List.take_of_length_le le_rfl
      rw [← h2, hwin, hfull]
    have hTchs : T ≤ s.chs.length := hfull ▸ hchs
    rw [inferStep_full T s next hfull]
    refine ⟨?_, ?_, ?_, ?_, ?_⟩
    · simp only [List.length_set, hd1]
    · show 1 ≤ s.cnt - 1 + 1
      omega
    · show s.cnt - 1 + 1 ≤ T
      omega
    · show s.cnt - 1 + 1 ≤ (s.chs ++ [next]).length
      simp only [List.length_append, List.length_cons, List.length_nil]
      omega
    · simp only [hfull]
      have hLHS : ((s.context.drop 1 ++ [0]).set (T - 1) next).take (T - 1 + 1)
          = s.context.drop 1 ++ [next] := by
        rw [take_succ_set _ _ _ (by omega)]
        rw [List.take_append_of_le_length (by simp [hlen]),
          List.take_of_length_le (by simp [hlen])]
      rw [hLHS]
      simp only [List.length_append, List.length_cons, List.length_nil]
      rw [show s.chs.length + (0 + 1) - (T - 1 + 1) = s.chs.length + 1 - T by omega]
      rw [List.drop_append_of_le_length (by omega)]
      rw [hctx, List.drop_drop]
      congr 2
      omega
  · have hlt : s.cnt < T := lt_of_le_of_ne hT hfull
    rw [inferStep_notfull T s next hfull]
    refine ⟨?_, ?_, ?_, ?_, ?_⟩
    · simp only [List.length_set, hlen]
    · show 1 ≤ s.cnt + 1
      omega
    · show s.cnt + 1 ≤ T
      omega
    · show s.cnt + 1 ≤ (s.chs ++ [next]).length
      simp only [List.length_append, List.length_cons, List.length_nil]
      omega
    · have hLHS : (s.context.set s.cnt next).take (s.cnt + 1)
          = s.context.take s.cnt ++ [next] :=
        take_succ_set _ _ _ (by omega)
      rw [hLHS, hwin]
      simp only [List.length_append, List.length_cons, List.length_nil]
      rw [show s.chs.length + (0 + 1) - (s.cnt + 1) = s.chs.length - s.cnt by omega]
      exact (List.drop_append_of_le_length (by omega)).symm

theorem inferInit_inv (T : Nat) (prompt : List Nat)
    (h1 : 1 ≤ prompt.length) (hT : prompt.length ≤ T) :
    InferInv T (inferInit T prompt) := by
  refine ⟨?_, h1, hT, le_rfl, ?_⟩
  · simp [inferInit]
    omega
  · simp only [inferInit]
    rw [List.take_append_of_le_length le_rfl, List.take_of_length_le le_rfl]
    simp

theorem inferFold_inv (T : Nat) (ts : List Nat) (s : InferState)
    (hinv : InferInv T s) : InferInv T (ts.foldl (inferStep T) s) := by
  induction ts generalizing s with
  | nil => exact hinv
  | cons t ts ih => exact ih _ (inferStep_inv T s t hinv)

theorem inferFold_chs (T : Nat) (ts : List Nat) (s : InferState) :
    (ts.foldl (inferStep T) s).chs = s.chs ++ ts := by
  induction ts generalizing s with
  | nil => simp
  | cons t ts ih =>
    rw [List.foldl_cons, ih]
    simp [inferStep]

/-- C4: for every prompt with `1 ≤ length ≤ T` and every sequence of
generated tokens, the generation loop preserves: the window has length
exactly `T`, the cursor stays in `[0, T]`, the produced sequence is the
prompt followed by the generated tokens, and window positions
`[cnt - min cnt T, cnt) = [0, cnt)` hold exactly the most recently produced
tokens in order. -/
theorem claim_C4_sliding_window (T : Nat) (prompt ts : List Nat)
    (h1 : 1 ≤ prompt.length) (hT : prompt.length ≤ T) :
    (inferRun T prompt ts).context.length = T ∧
      (inferRun T prompt ts).cnt ≤ T ∧
      (inferRun T prompt ts).chs = prompt ++ ts ∧
      ((inferRun T prompt ts).context.take ((inferRun T prompt ts).cnt) =
        (inferRun T prompt ts).chs.drop
          ((inferRun T prompt ts).chs.length - (inferRun T prompt ts).cnt)) := by
  have hinv := inferFold_inv T ts (inferInit T prompt) (inferInit_inv T prompt h1 hT)
  obtain ⟨ha, _, hb, _, hc⟩ := hinv
  exact ⟨ha, hb, by simpa [inferRun, inferInit] using inferFold_chs T ts (inferInit T prompt), hc⟩

/-- Witness for C4: window length 3, prompt `[7, 8]`, five generated
tokens. -/
theorem claim_C4_witness :
    (inferRun 3 [7, 8] [1, 2, 3, 4, 5]).context.length = 3 ∧
      (inferRun 3 [7, 8] [1, 2, 3, 4, 5]).cnt ≤ 3 ∧
      (inferRun 3 [7, 8] [1, 2, 3, 4, 5]).chs = [7, 8] ++ [1, 2, 3, 4, 5] ∧
      ((inferRun 3 [7, 8] [1, 2, 3, 4, 5]).context.take
          ((inferRun 3 [7, 8] [1, 2, 3, 4, 5]).cnt) =
        (inferRun 3 [7, 8] [1, 2, 3, 4, 5]).chs.drop
          ((inferRun 3 [7, 8] [1, 2, 3, 4, 5]).chs.length
            - (inferRun 3 [7, 8] [1, 2, 3, 4, 5]).cnt)) :=
  claim_C4_sliding_window 3 [7, 8] [1, 2, 3, 4, 5] (by decide) (by decide)

/-- gpt.rs 366-393 with the two partial operations made explicit: the
initial copy into the length-`T` window (`context[..prompt.len()]
.copy_from_slice(prompt)`) is defined only when the prompt fits, and each
iteration reads the logits row at index `cnt - 1`, defined only when
`cnt ≥ 1` (at `cnt = 0` the unsigned subtraction underflows).  The checked
model returns `none` exactly when one of those operations fails. -/
def inferRunChecked (T : Nat) (prompt : List Nat) (ts : List Nat) : Option InferState :=
  if T < prompt.length then none
  else
    ts.foldl
      (fun acc next =>
        match acc with
        | none => none
        | some s => if s.cnt = 0 then none else some (inferStep T s next))
      (some (inferInit T prompt))

theorem inferChecked_fold_none (T : Nat) (ts : List Nat) :
    ts.foldl
      (fun acc next =>
        match acc with
        | none => none
        | some s => if s.cnt = 0 then none else some (inferStep T s next))
      (none : Option InferState) = none := by
  induction ts with
  | nil => rfl
  | cons t ts ih => exact ih

theorem inferChecked_fold_some (T : Nat) (ts : List Nat) (s : InferState)
    (hinv : InferInv T s) :
    (ts.foldl
      (fun acc next =>
        match acc with
        | none => none
        | some s => if s.cnt = 0 then none else some (inferStep T s next))
      (some s)).isSome = true := by
  induction ts generalizing s with
  | nil => rfl
  | cons t ts ih =>
    have hne : s.cnt ≠ 0 := by
      have := hinv.2.1
      omega
    rw [List.foldl_cons]
    simp only [hne, if_false]
    exact ih (inferStep T s t) (inferStep_inv T s t hinv)

/-- C10: `infer` has the unstated precondition `1 ≤ prompt length ≤ T`: with
an empty prompt the first iteration reads logits row `cnt - 1` at `cnt = 0`
(unsigned underflow); with a prompt longer than `T` the initial copy into
the length-`T` window fails; and under `1 ≤ prompt length ≤ T` neither
failure is reachable for any number of generated tokens. -/
theorem claim_C10_infer_prompt_precondition (T : Nat) (prompt ts : List Nat) :
    (prompt = [] → ts ≠ [] → inferRunChecked T [] ts = none) ∧
      (T < prompt.length → inferRunChecked T prompt ts = none) ∧
      (1 ≤ prompt.length → prompt.length ≤ T →
        (inferRunChecked T prompt ts).isSome = true) := by
  refine ⟨?_, ?_, ?_⟩
  · intro hp hts
    cases ts with
    | nil => exact absurd rfl hts
    | cons t ts =>
      unfold inferRunChecked
      rw [if_neg (by simp)]
      rw [List.foldl_cons]
      simp only [inferInit, List.length_nil, if_pos rfl]
      exact inferChecked_fold_none T ts
  · intro hlong
    unfold inferRunChecked
    rw [if_pos hlong]
  · intro h1 hT
    unfold inferRunChecked
    rw [if_neg (by omega)]
    exact inferChecked_fold_some T ts (inferInit T prompt) (inferInit_inv T prompt h1 hT)

/-- Witness for C10: the empty-prompt run fails, the too-long-prompt run
fails, and a fitting nonempty prompt succeeds. -/
theorem claim_C10_witness :
    inferRunChecked 3 [] [5] = none ∧ inferRunChecked 1 [4, 4] [] = none ∧
      (inferRunChecked 2 [1] [0, 1, 2]).isSome = true :=
  ⟨(claim_C10_infer_prompt_precondition 3 [] [5]).1 rfl (by simp),
    (claim_C10_infer_prompt_precondition 1 [4, 4] []).2.1 (by norm_num),
    (claim_C10_infer_prompt_precondition 2 [1] [0, 1, 2]).2.2 (by norm_num) (by norm_num)⟩

/-! ## Embedding gradient reconciliation: `unembed` (gpt.rs 54-72)

`unembed` zips the bound ids with the input-gradient rows, groups the rows
by id in a `HashMap` (each key's rows kept in position order), and for each
id averages its rows and overwrites that row of the table's gradient buffer.
The `HashMap` is modelled as an association list built in first-insertion
order; since each key's row is written exactly once and the keys are
distinct, the iteration order does not affect the result. -/

/-- Append one gradient row to the group of key `ch`, creating the group if
absent: `embeds.entry(*ch).or_default().push(embed)` (gpt.rs 60-61). -/
def insertGrad (m : List (Nat × List (List ℚ))) (ch : Nat) (g : List ℚ) :
    List (Nat × List (List ℚ)) :=
  match m with
  | [] => [(ch, [g])]
  | (k, v) :: rest =>
    if k = ch then (k, v ++ [g]) :: rest else (k, v) :: insertGrad rest ch g

/-- gpt.rs 59-62: group the input-gradient rows by the id bound at their
position. -/
def buildEmbeds (s : List Nat) (grads : List (List ℚ)) :
    List (Nat × List (List ℚ)) :=
  (s.zip grads).foldl (fun m p => insertGrad m p.1 p.2) []

/-- gpt.rs 63-68: sum a group of rows starting from `Tensor::scalar(0.)`
(broadcast) and multiply by `1 / vals.len()`. -/
def avgRows (E : Nat) (vals : List (List ℚ)) : List ℚ :=
  (sumTensors E vals).map (fun x => x * (1 / (vals.length : ℚ)))

/-- gpt.rs 54-72 `unembed`: write each id's averaged gradient row into the
(zero-initialized) embedding-gradient table. -/
def unembed (E : Nat) (s : List Nat) (grads : List (List ℚ))
    (embedding : List (List ℚ)) : List (List ℚ) :=
  (buildEmbeds s grads).foldl (fun tb p => tb.set p.1 (avgRows E p.2)) embedding

/-- The spec's grouping: the input-gradient rows at exactly the positions
where id `r` is bound, in position order. -/
def groupGrads (s : List Nat) (grads : List (List ℚ)) (r : Nat) :
    List (List ℚ) :=
  ((s.zip grads).filter (fun p => decide (p.1 = r))).map Prod.snd

/-- The spec's elementwise mean of a group of rows. -/
def meanRows (E : Nat) (vals : List (List ℚ)) : List ℚ :=
  (List.range E).map (fun i => (vals.map (fun v => v.getD i 0)).sum / (vals.length : ℚ))

def aLookup (m : List (Nat × List (List ℚ))) (r : Nat) : Option (List (List ℚ)) :=
  match m with
  | [] => none
  | (k, v) :: rest => if k = r then some v else aLookup rest r

def aKeys (m : List (Nat × List (List ℚ))) : List Nat := m.map Prod.fst

theorem aLookup_insertGrad (m : List (Nat × List (List ℚ))) (ch : Nat)
    (g : List ℚ) (r : Nat) :
    aLookup (insertGrad m ch g) r =
      if r = ch then some ((aLookup m ch).getD [] ++ [g]) else aLookup m r := by
  induction m with
  | nil =>
    by_cases h : r = ch
    · subst h
      simp [insertGrad, aLookup]
    · have h2 : ¬ ch = r := fun hc => h hc.symm
      simp [insertGrad, aLookup, h, h2]
  | cons p rest ih =>
    obtain ⟨k, v⟩ := p
    by_cases hk : k = ch
    · subst hk
      by_cases h : r = k
      · subst h
        simp [insertGrad, aLookup]
      · have h2 : ¬ k = r := fun hc => h hc.symm
        simp [insertGrad, aLookup, h, h2]
    · simp only [insertGrad, if_neg hk]
      by_cases h : r = ch
      · subst h
        have hkr : ¬ k = r := hk
        simp [aLookup, hkr, ih]
      · by_cases hkr : k = r
        · subst hkr
          simp [aLookup, h]
        · simp [aLookup, hkr, h, ih]

theorem aKeys_insertGrad (m : List (Nat × List (List ℚ))) (ch : Nat) (g : List ℚ) :
    aKeys (insertGrad m ch g) =
      if ch ∈ aKeys m then aKeys m else aKeys m ++ [ch] := by
  induction m with
  | nil => simp [insertGrad, aKeys]
  | cons p rest ih =>
    obtain ⟨k, v⟩ := p
    by_cases hk : k = ch
    · subst hk
      simp [insertGrad, aKeys]
    · have hne : ¬ ch = k := fun h => hk h.symm
      simp only [insertGrad, if_neg hk, aKeys, List.map_cons] at ih ⊢
      rw [ih]
      by_cases hmem : ch ∈ List.map Prod.fst rest
      · rw [if_pos hmem, if_pos (by simp [hmem])]
      · rw [if_neg hmem, if_neg (by simp [hmem, hne]), List.cons_append]

theorem aKeys_nodup_insertGrad (m : List (Nat × List (List ℚ))) (ch : Nat)
    (g : List ℚ) (h : (aKeys m).Nodup) : (aKeys (insertGrad m ch g)).Nodup := by
  rw [aKeys_insertGrad]
  by_cases hmem : ch ∈ aKeys m
  · simpa [hmem] using h
  · simp only [hmem, if_false]
    simp [List.nodup_append, h, hmem]

theorem mem_aKeys_iff_isSome (m : List (Nat × List (List ℚ))) (r : Nat) :
    r ∈ aKeys m ↔ (aLookup m r).isSome = true := by
  induction m with
  | nil => simp [aKeys, aLookup]
  | cons p rest ih =>
    obtain ⟨k, v⟩ := p
    by_cases hk : k = r
    · subst hk
      simp [aKeys, aLookup]
    · have hne : ¬ r = k := fun h => hk h.symm
      show r ∈ k :: aKeys rest ↔ _
      rw [List.mem_cons]
      simp only [aLookup, if_neg hk]
      rw [← ih]
      simp [hne]

theorem aKeys_cons (p : Nat × List (List ℚ)) (rest : List (Nat × List (List ℚ))) :
    aKeys (p :: rest) = p.1 :: aKeys rest := rfl

theorem mem_aKeys_insertGrad (m : List (Nat × List (List ℚ))) (ch : Nat)
    (g : List ℚ) (r : Nat) :
    r ∈ aKeys (insertGrad m ch g) ↔ r ∈ aKeys m ∨ r = ch := by
  rw [aKeys_insertGrad]
  by_cases hmem : ch ∈ aKeys m
  · rw [if_pos hmem]
    constructor
    · exact Or.inl
    · rintro (h | h)
      · exact h
      · subst h
        exact hmem
  · rw [if_neg hmem]
    simp

theorem accG_foldIns (l : List (Nat × List ℚ)) (m : List (Nat × List (List ℚ)))
    (r : Nat) :
    (aLookup (l.foldl (fun m p => insertGrad m p.1 p.2) m) r).getD [] =
      (aLookup m r).getD [] ++ (l.filter (fun p => decide (p.1 = r))).map Prod.snd := by
  induction l generalizing m with
  | nil => simp
  | cons p rest ih =>
    obtain ⟨ch, g⟩ := p
    rw [List.foldl_cons, ih, aLookup_insertGrad]
    by_cases h : ch = r
    · subst h
      rw [if_pos rfl, List.filter_cons, if_pos (by simp)]
      simp
    · have hne : ¬ r = ch := fun hc => h hc.symm
      rw [if_neg hne, List.filter_cons, if_neg (by simp [h])]

theorem mem_aKeys_foldIns (l : List (Nat × List ℚ)) (m : List (Nat × List (List ℚ)))
    (r : Nat) :
    r ∈ aKeys (l.foldl (fun m p => insertGrad m p.1 p.2) m) ↔
      r ∈ aKeys m ∨ r ∈ l.map Prod.fst := by
  induction l generalizing m with
  | nil => simp
  | cons p rest ih =>
    obtain ⟨ch, g⟩ := p
    rw [List.foldl_cons, ih, mem_aKeys_insertGrad]
    simp only [List.map_cons, List.mem_cons]
    tauto

theorem aKeys_nodup_foldIns (l : List (Nat × List ℚ)) (m : List (Nat × List (List ℚ)))
    (h : (aKeys m).Nodup) :
    (aKeys (l.foldl (fun m p => insertGrad m p.1 p.2) m)).Nodup := by
  induction l generalizing m with
  | nil => exact h
  | cons p rest ih => exact ih _ (aKeys_nodup_insertGrad m p.1 p.2 h)

theorem foldSet_length (E : Nat) (m : List (Nat × List (List ℚ))) (tb : List (List ℚ)) :
    (m.foldl (fun tb p => tb.set p.1 (avgRows E p.2)) tb).length = tb.length := by
  induction m generalizing tb with
  | nil => rfl
  | cons p rest ih =>
    rw [List.foldl_cons, ih]
    simp

theorem foldSet_get_notmem (E : Nat) (m : List (Nat × List (List ℚ)))
    (tb : List (List ℚ)) (r : Nat) (h : r ∉ aKeys m) :
    (m.foldl (fun tb p => tb.set p.1 (avgRows E p.2)) tb)[r]? = tb[r]? := by
  induction m generalizing tb with
  | nil => rfl
  | cons p rest ih =>
    rw [aKeys_cons, List.mem_cons] at h
    push_neg at h
    rw [List.foldl_cons, ih _ h.2]
    exact List.getElem?_set_ne (fun hc => h.1 hc.symm)

theorem foldSet_get_mem (E : Nat) (m : List (Nat × List (List ℚ)))
    (tb : List (List ℚ)) (r : Nat) (v : List (List ℚ))
    (hnd : (aKeys m).Nodup) (hl : aLookup m r = some v) (hr : r < tb.length) :
    (m.foldl (fun tb p => tb.set p.1 (avgRows E p.2)) tb)[r]? = some (avgRows E v) := by
  induction m generalizing tb with
  | nil => simp [aLookup] at hl
  | cons p rest ih =>
    obtain ⟨k, w⟩ := p
    rw [aKeys_cons] at hnd
    obtain ⟨hhead, htail⟩ := List.nodup_cons.mp hnd
    by_cases hk : k = r
    · subst hk
      simp [aLookup] at hl
      subst hl
      rw [List.foldl_cons]
      rw [foldSet_get_notmem E rest _ k hhead]
      exact List.getElem?_set_self (by simpa using hr)
    · simp only [aLookup, if_neg hk] at hl
      rw [List.foldl_cons]
      exact ih _ htail hl (by simpa using hr)

theorem avgRows_eq_meanRows (E : Nat) (vals : List (List ℚ))
    (hw : ∀ v ∈ vals, v.length = E) :
    avgRows E vals = meanRows E vals := by
  have hsl : (sumTensors E vals).length = E := sumTensors_length E vals hw
  apply List.ext_getElem
  · simp [avgRows, meanRows, hsl]
  · intro i h1 h2
    have hi : i < E := by simpa [avgRows, hsl] using h1
    simp only [avgRows, meanRows, List.getElem_map, List.getElem_range]
    rw [← List.getD_eq_getElem (sumTensors E vals) 0 (by rw [hsl]; exact hi),
      sumTensors_getD E vals i hw]
    rw [mul_one_div]

theorem groupGrads_sub (s : List Nat) (grads : List (List ℚ)) (r : Nat)
    (v : List ℚ) (hv : v ∈ groupGrads s grads r) : v ∈ grads := by
  obtain ⟨p, hp, rfl⟩ := List.mem_map.mp hv
  exact (List.of_mem_zip (List.mem_of_mem_filter hp)).2

theorem groupGrads_cons_self (a : Nat) (s : List Nat) (g : List ℚ)
    (gs : List (List ℚ)) :
    groupGrads (a :: s) (g :: gs) a = g :: groupGrads s gs a := by
  unfold groupGrads
  rw [List.zip_cons_cons, List.filter_cons, if_pos (by simp)]
  simp

theorem groupGrads_cons_ne (a r : Nat) (s : List Nat) (g : List ℚ)
    (gs : List (List ℚ)) (h : ¬ a = r) :
    groupGrads (a :: s) (g :: gs) r = groupGrads s gs r := by
  unfold groupGrads
  rw [List.zip_cons_cons, List.filter_cons, if_neg (by simp [h])]

theorem groupGrads_length_count (s : List Nat) (grads : List (List ℚ)) (r : Nat)
    (hlen : s.length = grads.length) :
    (groupGrads s grads r).length = s.count r := by
  induction s generalizing grads with
  | nil => simp [groupGrads]
  | cons a s ih =>
    cases grads with
    | nil => simp at hlen
    | cons g gs =>
      have hlen2 : s.length = gs.length := by simpa using hlen
      by_cases h : a = r
      · subst h
        rw [groupGrads_cons_self, List.length_cons, ih gs hlen2, List.count_cons_self]
      · rw [groupGrads_cons_ne a r s g gs h, ih gs hlen2,
          List.count_cons_of_ne (fun hc => h hc.symm)]

/-- C1: reconciling one sample's embedding gradients with `unembed` into the
zero-initialized table of `R` rows: every row `r` bound at `k = count ≥ 1`
positions receives exactly the elementwise mean of the `k` input-gradient
rows at those positions, and every row never bound keeps its all-zero
gradient row. -/
theorem claim_C1_unembed_row_mean (E R : Nat) (s : List Nat)
    (grads : List (List ℚ)) (r : Nat)
    (hlen : s.length = grads.length) (hw : ∀ g ∈ grads, g.length = E)
    (hr : r < R) :
    (r ∈ s →
      (unembed E s grads (List.replicate R (List.replicate E 0)))[r]? =
          some (meanRows E (groupGrads s grads r)) ∧
        (groupGrads s grads r).length = s.count r ∧ 1 ≤ s.count r) ∧
      (r ∉ s →
        (unembed E s grads (List.replicate R (List.replicate E 0)))[r]? =
          some (List.replicate E 0)) := by
  have hnd : (aKeys (buildEmbeds s grads)).Nodup :=
    aKeys_nodup_foldIns _ [] (by simp [aKeys])
  have haccG : ∀ q : Nat, (aLookup (buildEmbeds s grads) q).getD [] = groupGrads s grads q := by
    intro q
    rw [buildEmbeds, accG_foldIns]
    simp [aLookup, groupGrads]
  have hkeys : ∀ q : Nat, q ∈ aKeys (buildEmbeds s grads) ↔ q ∈ s := by
    intro q
    rw [buildEmbeds, mem_aKeys_foldIns]
    rw [List.map_fst_zip s grads (le_of_eq hlen)]
    simp [aKeys]
  constructor
  · intro hmem
    have hsome : (aLookup (buildEmbeds s grads) r).isSome = true :=
      (mem_aKeys_iff_isSome _ r).mp ((hkeys r).mpr hmem)
    obtain ⟨v, hv⟩ := Option.isSome_iff_exists.mp hsome
    have hvval : v = groupGrads s grads r := by
      have := haccG r
      rwa [hv, Option.getD_some] at this
    refine ⟨?_, groupGrads_length_count s grads r hlen, ?_⟩
    · rw [unembed, foldSet_get_mem E _ _ r v hnd hv (by simpa using hr), hvval]
      rw [avgRows_eq_meanRows E _ (fun g hg => hw g (groupGrads_sub s grads r g hg))]
    · exact List.count_pos_iff_mem.mpr hmem
  · intro hmem
    rw [unembed, foldSet_get_notmem E _ _ r (fun hc => hmem ((hkeys r).mp hc))]
    exact List.getElem?_replicate_of_lt hr

/-- Witness for C1: context ids `[1, 1, 2]` with gradient rows `[1, 2]`,
`[3, 4]`, `[5, 6]`; row 1 is bound twice and gets the mean of the first two
rows. -/
theorem claim_C1_witness :
    (unembed 2 [1, 1, 2] [[1, 2], [3, 4], [5, 6]]
        (List.replicate 3 (List.replicate 2 0)))[1]? =
        some (meanRows 2 (groupGrads [1, 1, 2] [[1, 2], [3, 4], [5, 6]] 1)) ∧
      (groupGrads [1, 1, 2] [[1, 2], [3, 4], [5, 6]] 1).length = [1, 1, 2].count 1 ∧
      1 ≤ [1, 1, 2].count 1 :=
  (claim_C1_unembed_row_mean 2 3 [1, 1, 2] [[1, 2], [3, 4], [5, 6]] 1 (by decide)
    (by decide) (by decide)).1 (by decide)

/-! ## Graph construction: `GPT::new` (gpt.rs 94-233)

The model tracks exactly what C5 and C6 need: the id counter (`alloc_rand`
and every `Graph::call` allocate one fresh node id each), the list of
`alloc_rand` allocations in order (id, shape, learnable flag — only the two
input placeholders are not learnable), and the `params` list as the code
appends to it. -/

structure BuildSt where
  next : Nat
  allocs : List (Nat × List Nat × Bool)
  params : List (Nat × List Nat)
deriving DecidableEq

/-- `g.alloc_rand(rng, shape)`: returns the fresh id and records the
allocation (flagged learnable unless it is an input placeholder). -/
def allocT (st : BuildSt) (shape : List Nat) (learn : Bool) : Nat × BuildSt :=
  (st.next,
    { next := st.next + 1
      allocs := st.allocs ++ [(st.next, shape, learn)]
      params := st.params })

/-- `k` consecutive `g.call(...)` operator applications: each allocates a
fresh (non-learnable) result node id. -/
def callsT (k : Nat) (st : BuildSt) : BuildSt :=
  { st with next := st.next + k }

/-- gpt.rs 131-153: one attention head: allocate `k/q/v : [E, S]` and append
them to `params` (line 135), then the ten operator nodes `k`, `q`, `v`,
`q_t`, `kq`, `kq_coeff`, `masked_kq`, `soft_masked_kq`,
`dropped_soft_masked_kq`, `atten`. -/
def buildHead (E S : Nat) (st : BuildSt) : BuildSt :=
  let (kp, st1) := allocT st [E, S] true
  let (qp, st2) := allocT st1 [E, S] true
  let (vp, st3) := allocT st2 [E, S] true
  let st4 : BuildSt :=
    { st3 with params := st3.params ++ [(kp, [E, S]), (qp, [E, S]), (vp, [E, S])] }
  callsT 10 st4

def buildHeads (E S : Nat) : Nat → BuildSt → BuildSt
  | 0, st => st
  | n + 1, st => buildHeads E S n (buildHead E S st)

/-- gpt.rs 181-188: one hidden feed-forward stage: allocate
`[4E, 4E]` and `[4E]`, append them to `params` (line 184), then the three
operator nodes `lin_result`, `lin_bias_result`, `relu`. -/
def buildHidden (E : Nat) (st : BuildSt) : BuildSt :=
  let (lp, st1) := allocT st [4 * E, 4 * E] true
  let (bp, st2) := allocT st1 [4 * E] true
  let st3 : BuildSt :=
    { st2 with params := st2.params ++ [(lp, [4 * E, 4 * E]), (bp, [4 * E])] }
  callsT 3 st3

def buildHiddens (E : Nat) : Nat → BuildSt → BuildSt
  | 0, st => st
  | n + 1, st => buildHiddens E n (buildHidden E st)

/-- gpt.rs 123-126: the pre-attention layer norm pair, appended to `params`
immediately (line 125), then the `norm_inp` call. -/
def buildLayerStart (E : Nat) (st : BuildSt) : BuildSt :=
  let (nc, st1) := allocT st [E] true
  let (nb, st2) := allocT st1 [E] true
  let st3 : BuildSt := { st2 with params := st2.params ++ [(nc, [E]), (nb, [E])] }
  callsT 1 st3

/-- gpt.rs 156-205: everything after the head loop: the `cat` call, the
projection pair (157-158), the `proj_cat`/`proj_cat_bias`/`dropped` and
`add_atten` calls, the post-attention norm pair (165-166), the
`add_atten_norm` call, the `lin1` pair (176-177), three calls, the hidden
stages, the `lin2` pair (189-190), two calls, then the late `params.extend`
(194-203) — projection, lin1, lin2 and post-attention norm pairs, i.e. ids
allocated earlier in this segment — and the residual `Add` call (205). -/
def buildLayerTail (E H S F : Nat) (st : BuildSt) : BuildSt :=
  let st6 := callsT 1 st
  let (pp, st7) := allocT st6 [H * S, E] true
  let (pb, st8) := allocT st7 [E] true
  let st9 := callsT 4 st8
  let (anc, st10) := allocT st9 [E] true
  let (anb, st11) := allocT st10 [E] true
  let st12 := callsT 1 st11
  let (l1, st13) := allocT st12 [E, 4 * E] true
  let (b1, st14) := allocT st13 [4 * E] true
  let st15 := callsT 3 st14
  let st16 := buildHiddens E F st15
  let (l2, st17) := allocT st16 [4 * E, E] true
  let (b2, st18) := allocT st17 [E] true
  let st19 := callsT 2 st18
  let st20 : BuildSt :=
    { st19 with params := st19.params ++
        [(pp, [H * S, E]), (pb, [E]), (l1, [E, 4 * E]), (b1, [4 * E]),
          (l2, [4 * E, E]), (b2, [E]), (anc, [E]), (anb, [E])] }
  callsT 1 st20

/-- gpt.rs 121-206: one transformer layer: the norm pair, the `H` heads, and
the tail segment. -/
def buildLayer (E H S F : Nat) (st : BuildSt) : BuildSt :=
  buildLayerTail E H S F (buildHeads E S H (buildLayerStart E st))

def buildLayers (E H S F : Nat) : Nat → BuildSt → BuildSt
  | 0, st => st
  | n + 1, st => buildLayers E H S F n (buildLayer E H S F st)

/-- gpt.rs 94-233 `GPT::new`: embedding tables, input placeholders (not
learnable), the `inp` Add call, the layers, the final norm pair, the
`norm_out` call, the vocabulary projection pair with its two calls, and the
`params` appends in source order (118, layers, 211, 219). -/
def gptNew (V E T L H S F : Nat) : BuildSt :=
  let st0 : BuildSt := { next := 0, allocs := [], params := [] }
  let (te, st1) := allocT st0 [V, E] true
  let (pe, st2) := allocT st1 [T, E] true
  let (_, st3) := allocT st2 [T, E] false
  let (_, st4) := allocT st3 [T, E] false
  let st5 := callsT 1 st4
  let st6 : BuildSt := { st5 with params := st5.params ++ [(te, [V, E]), (pe, [T, E])] }
  let st7 := buildLayers E H S F L st6
  let (noc, st8) := allocT st7 [E] true
  let (nob, st9) := allocT st8 [E] true
  let st10 : BuildSt := { st9 with params := st9.params ++ [(noc, [E]), (nob, [E])] }
  let st11 := callsT 1 st10
  let (tv, st12) := allocT st11 [E, V] true
  let (tvb, st13) := allocT st12 [V] true
  let st14 := callsT 2 st13
  { st14 with params := st14.params ++ [(tv, [E, V]), (tvb, [V])] }

/-- gpt.rs 235-240 `num_params`: the sum over the `params` list of each
tensor's element count (its shape's product). -/
def num_params (V E T L H S F : Nat) : Nat :=
  ((gptNew V E T L H S F).params.map (fun p => p.2.prod)).sum

/-- The learnable allocations, in allocation order, with the flag
stripped. -/
def stripL (A : List (Nat × List Nat × Bool)) : List (Nat × List Nat) :=
  (A.filter (fun a => a.2.2)).map (fun a => (a.1, a.2.1))

def sumP (P : List (Nat × List Nat)) : Nat := (P.map (fun p => p.2.prod)).sum

/-- Allocation ids of a block lie in `[lo, hi)` and are strictly
increasing. -/
def IdsIn (A : List (Nat × List Nat × Bool)) (lo hi : Nat) : Prop :=
  (∀ a ∈ A, lo ≤ a.1 ∧ a.1 < hi) ∧ (A.map (fun a => a.1)).Pairwise (· < ·)

theorem stripL_append (A B : List (Nat × List Nat × Bool)) :
    stripL (A ++ B) = stripL A ++ stripL B := by
  simp [stripL]

theorem sumP_append (P Q : List (Nat × List Nat)) :
    sumP (P ++ Q) = sumP P + sumP Q := by
  simp [sumP]

theorem IdsIn_nil (lo hi : Nat) : IdsIn [] lo hi :=
  ⟨by simp, by simp⟩

theorem IdsIn_widen (A : List (Nat × List Nat × Bool)) (lo hi lo2 hi2 : Nat)
    (h : IdsIn A lo hi) (hlo : lo2 ≤ lo) (hhi : hi ≤ hi2) : IdsIn A lo2 hi2 := by
  refine ⟨fun a ha => ?_, h.2⟩
  have := h.1 a ha
  omega

theorem IdsIn_append (A B : List (Nat × List Nat × Bool)) (lo mid hi : Nat)
    (hA : IdsIn A lo mid) (hB : IdsIn B mid hi) (h1 : lo ≤ mid) (h2 : mid ≤ hi) :
    IdsIn (A ++ B) lo hi := by
  refine ⟨fun a ha => ?_, ?_⟩
  · rcases List.mem_append.mp ha with h | h
    · have := hA.1 a h
      omega
    · have := hB.1 a h
      omega
  · rw [List.map_append]
    rw [List.pairwise_append]
    refine ⟨hA.2, hB.2, fun a haa b hbb => ?_⟩
    obtain ⟨x, hx, rfl⟩ := List.mem_map.mp haa
    obtain ⟨y, hy, rfl⟩ := List.mem_map.mp hbb
    have h3 := hA.1 x hx
    have h4 := hB.1 y hy
    omega

/-- What one construction stage contributes: it appends a block `A` to the
allocations and a block `P` to the params list, advances the id counter by
`cNext`, the new ids are fresh and increasing, `P` is a permutation of the
learnable part of `A`, and `P`'s element count is `cSum`. -/
def StageSpec (build : BuildSt → BuildSt) (cNext cSum : Nat) : Prop :=
  ∀ st : BuildSt, ∃ A P,
    (build st).allocs = st.allocs ++ A ∧
    (build st).params = st.params ++ P ∧
    (build st).next = st.next + cNext ∧
    IdsIn A st.next (st.next + cNext) ∧
    List.Perm P (stripL A) ∧
    sumP P = cSum

theorem stageSpec_congr (f : BuildSt → BuildSt) (c s c' s' : Nat)
    (h : StageSpec f c s) (hc : c = c') (hs : s = s') : StageSpec f c' s' := by
  subst hc
  subst hs
  exact h

theorem stageSpec_comp (f g : BuildSt → BuildSt) (c1 s1 c2 s2 : Nat)
    (hf : StageSpec f c1 s1) (hg : StageSpec g c2 s2) :
    StageSpec (fun st => g (f st)) (c1 + c2) (s1 + s2) := by
  intro st
  obtain ⟨A1, P1, ha1, hp1, hn1, hi1, hperm1, hs1⟩ := hf st
  obtain ⟨A2, P2, ha2, hp2, hn2, hi2, hperm2, hs2⟩ := hg (f st)
  refine ⟨A1 ++ A2, P1 ++ P2, ?_, ?_, ?_, ?_, ?_, ?_⟩
  · rw [ha2, ha1, List.append_assoc]
  · rw [hp2, hp1, List.append_assoc]
  · rw [hn2, hn1]
    omega
  · rw [hn1] at hi2
    exact IdsIn_append A1 A2 st.next (st.next + c1) (st.next + (c1 + c2))
      hi1 (IdsIn_widen _ _ _ _ _ hi2 le_rfl (by omega)) (by omega) (by omega)
  · rw [stripL_append]
    exact hperm1.append hperm2
  · rw [sumP_append, hs1, hs2]

theorem buildHead_spec (E S : Nat) : StageSpec (buildHead E S) 13 (3 * (E * S)) := by
  intro st
  refine ⟨[(st.next, [E, S], true), (st.next + 1, [E, S], true), (st.next + 2, [E, S], true)],
    [(st.next, [E, S]), (st.next + 1, [E, S]), (st.next + 2, [E, S])], ?_, ?_, ?_, ?_, ?_, ?_⟩
  · simp [buildHead, allocT, callsT]
  · simp [buildHead, allocT, callsT]
  · simp [buildHead, allocT, callsT]
  · refine ⟨fun a ha => ?_, ?_⟩
    · simp only [List.mem_cons, List.not_mem_nil, or_false] at ha
      rcases ha with h | h | h <;> subst h <;> simp <;> omega
    · simp [List.pairwise_cons] <;> omega
  · simp [stripL]
  · simp [sumP]
    ring

theorem buildHeads_spec (E S : Nat) :
    ∀ n : Nat, StageSpec (buildHeads E S n) (13 * n) (3 * (E * S) * n) := by
  intro n
  induction n with
  | zero =>
    intro st
    exact ⟨[], [], by simp [buildHeads], by simp [buildHeads], by simp [buildHeads],
      IdsIn_nil _ _, List.Perm.refl _, by simp [sumP]⟩
  | succ n ih =>
    have h := stageSpec_comp (buildHead E S) (buildHeads E S n) 13 (3 * (E * S))
      (13 * n) (3 * (E * S) * n) (buildHead_spec E S) ih
    exact stageSpec_congr _ _ _ _ _
      (by intro st; exact h st) (by ring) (by ring)

theorem buildHidden_spec (E : Nat) :
    StageSpec (buildHidden E) 5 (4 * E * (4 * E) + 4 * E) := by
  intro st
  refine ⟨[(st.next, [4 * E, 4 * E], true), (st.next + 1, [4 * E], true)],
    [(st.next, [4 * E, 4 * E]), (st.next + 1, [4 * E])], ?_, ?_, ?_, ?_, ?_, ?_⟩
  · simp [buildHidden, allocT, callsT]
  · simp [buildHidden, allocT, callsT]
  · simp [buildHidden, allocT, callsT]
  · refine ⟨fun a ha => ?_, ?_⟩
    · simp only [List.mem_cons, List.not_mem_nil, or_false] at ha
      rcases ha with h | h <;> subst h <;> simp <;> omega
    · simp [List.pairwise_cons] <;> omega
  · simp [stripL]
  · simp [sumP] <;> ring

theorem buildHiddens_spec (E : Nat) :
    ∀ n : Nat, StageSpec (buildHiddens E n) (5 * n) ((4 * E * (4 * E) + 4 * E) * n) := by
  intro n
  induction n with
  | zero =>
    intro st
    exact ⟨[], [], by simp [buildHiddens], by simp [buildHiddens], by simp [buildHiddens],
      IdsIn_nil _ _, List.Perm.refl _, by simp [sumP]⟩
  | succ n ih =>
    have h := stageSpec_comp (buildHidden E) (buildHiddens E n) 5 (4 * E * (4 * E) + 4 * E)
      (5 * n) ((4 * E * (4 * E) + 4 * E) * n) (buildHidden_spec E) ih
    exact stageSpec_congr _ _ _ _ _ (by intro st; exact h st) (by ring) (by ring)

theorem BuildSt.ext3 (a b : BuildSt) (h1 : a.next = b.next)
    (h2 : a.allocs = b.allocs) (h3 : a.params = b.params) : a = b := by
  cases a
  cases b
  simp only at h1 h2 h3
  subst h1
  subst h2
  subst h3
  rfl

theorem buildLayerStart_spec (E : Nat) :
    StageSpec (buildLayerStart E) 3 (E + E) := by
  intro st
  refine ⟨[(st.next, [E], true), (st.next + 1, [E], true)],
    [(st.next, [E]), (st.next + 1, [E])], ?_, ?_, ?_, ?_, ?_, ?_⟩
  · simp [buildLayerStart, allocT, callsT]
  · simp [buildLayerStart, allocT, callsT]
  · simp [buildLayerStart, allocT, callsT]
  · refine ⟨fun a ha => ?_, ?_⟩
    · simp only [List.mem_cons, List.not_mem_nil, or_false] at ha
      rcases ha with h | h <;> subst h <;> simp <;> omega
    · simp [List.pairwise_cons] <;> omega
  · simp [stripL]
  · simp [sumP] <;> ring

theorem IdsIn_single (i : Nat) (sh : List Nat) (b : Bool) (lo hi : Nat)
    (h1 : lo ≤ i) (h2 : i < hi) : IdsIn [(i, sh, b)] lo hi := by
  refine ⟨fun a ha => ?_, by simp⟩
  simp only [List.mem_cons, List.not_mem_nil, or_false] at ha
  subst ha
  exact ⟨h1, h2⟩

theorem stripL_single (i : Nat) (sh : List Nat) :
    stripL [(i, sh, true)] = [(i, sh)] := by
  simp [stripL]

theorem stripL_cons_true (i : Nat) (sh : List Nat)
    (rest : List (Nat × List Nat × Bool)) :
    stripL ((i, sh, true) :: rest) = (i, sh) :: stripL rest := by
  simp [stripL]

theorem stripL_nil : stripL [] = [] := rfl

theorem buildLayerTail_spec (E H S F : Nat) :
    StageSpec (buildLayerTail E H S F)
      (20 + 5 * F)
      (H * S * E + E + E * (4 * E) + 4 * E + (4 * E * (4 * E) + 4 * E) * F
        + 4 * E * E + E + E + E) := by
  intro st
  obtain ⟨Ah, Ph, hah, hph, hnh, hih, hpermh, hsh⟩ := buildHiddens_spec E F
    { next := st.next + 1 + 1 + 1 + 4 + 1 + 1 + 1 + 1 + 1 + 3
      allocs :=
        st.allocs ++ [(st.next + 1, [H * S, E], true)] ++ [(st.next + 1 + 1, [E], true)] ++
                [(st.next + 1 + 1 + 1 + 4, [E], true)] ++
              [(st.next + 1 + 1 + 1 + 4 + 1, [E], true)] ++
            [(st.next + 1 + 1 + 1 + 4 + 1 + 1 + 1, [E, 4 * E], true)] ++
          [(st.next + 1 + 1 + 1 + 4 + 1 + 1 + 1 + 1, [4 * E], true)]
      params := st.params }
  have hih2 : IdsIn Ah (st.next + 1 + 1 + 1 + 4 + 1 + 1 + 1 + 1 + 1 + 3)
      (st.next + 1 + 1 + 1 + 4 + 1 + 1 + 1 + 1 + 1 + 3 + 5 * F) := hih
  have hHidEq : buildHiddens E F
      { next := st.next + 1 + 1 + 1 + 4 + 1 + 1 + 1 + 1 + 1 + 3
        allocs :=
          st.allocs ++ [(st.next + 1, [H * S, E], true)] ++ [(st.next + 1 + 1, [E], true)] ++
                  [(st.next + 1 + 1 + 1 + 4, [E], true)] ++
                [(st.next + 1 + 1 + 1 + 4 + 1, [E], true)] ++
              [(st.next + 1 + 1 + 1 + 4 + 1 + 1 + 1, [E, 4 * E], true)] ++
            [(st.next + 1 + 1 + 1 + 4 + 1 + 1 + 1 + 1, [4 * E], true)]
        params := st.params } =
      { next := st.next + 1 + 1 + 1 + 4 + 1 + 1 + 1 + 1 + 1 + 3 + 5 * F
        allocs :=
          (st.allocs ++ [(st.next + 1, [H * S, E], true)] ++ [(st.next + 1 + 1, [E], true)] ++
                  [(st.next + 1 + 1 + 1 + 4, [E], true)] ++
                [(st.next + 1 + 1 + 1 + 4 + 1, [E], true)] ++
              [(st.next + 1 + 1 + 1 + 4 + 1 + 1 + 1, [E, 4 * E], true)] ++
            [(st.next + 1 + 1 + 1 + 4 + 1 + 1 + 1 + 1, [4 * E], true)]) ++ Ah
        params := st.params ++ Ph } :=
    BuildSt.ext3 _ _ hnh hah hph
  refine ⟨[(st.next + 1, [H * S, E], true), (st.next + 1 + 1, [E], true),
      (st.next + 1 + 1 + 1 + 4, [E], true), (st.next + 1 + 1 + 1 + 4 + 1, [E], true),
      (st.next + 1 + 1 + 1 + 4 + 1 + 1 + 1, [E, 4 * E], true),
      (st.next + 1 + 1 + 1 + 4 + 1 + 1 + 1 + 1, [4 * E], true)] ++ Ah ++
      [(st.next + 1 + 1 + 1 + 4 + 1 + 1 + 1 + 1 + 1 + 3 + 5 * F, [4 * E, E], true),
        (st.next + 1 + 1 + 1 + 4 + 1 + 1 + 1 + 1 + 1 + 3 + 5 * F + 1, [E], true)],
    Ph ++ [(st.next + 1, [H * S, E]), (st.next + 1 + 1, [E]),
      (st.next + 1 + 1 + 1 + 4 + 1 + 1 + 1, [E, 4 * E]),
      (st.next + 1 + 1 + 1 + 4 + 1 + 1 + 1 + 1, [4 * E]),
      (st.next + 1 + 1 + 1 + 4 + 1 + 1 + 1 + 1 + 1 + 3 + 5 * F, [4 * E, E]),
      (st.next + 1 + 1 + 1 + 4 + 1 + 1 + 1 + 1 + 1 + 3 + 5 * F + 1, [E]),
      (st.next + 1 + 1 + 1 + 4, [E]), (st.next + 1 + 1 + 1 + 4 + 1, [E])],
    ?_, ?_, ?_, ?_, ?_, ?_⟩
  · simp only [buildLayerTail, allocT, callsT]
    rw [hHidEq]
    dsimp only
    simp only [List.append_assoc, List.singleton_append, List.cons_append,
      List.nil_append]
  · simp only [buildLayerTail, allocT, callsT]
    rw [hHidEq]
    dsimp only
    simp only [List.append_assoc, List.singleton_append, List.cons_append,
      List.nil_append]
  · simp only [buildLayerTail, allocT, callsT]
    rw [hHidEq]
    dsimp only
    omega
  · refine IdsIn_append _ _ _ (st.next + 15 + 5 * F) _ ?_ ?_ (by omega) (by omega)
    · refine IdsIn_append _ _ _ (st.next + 12) _ ?_
        (IdsIn_widen _ _ _ _ _ hih2 (by omega) (by omega)) (by omega) (by omega)
      refine ⟨fun a ha => ?_, ?_⟩
      · simp only [List.mem_cons, List.not_mem_nil, or_false] at ha
        rcases ha with h | h | h | h | h | h <;> subst h <;> simp <;> omega
      · simp [List.pairwise_cons] <;> omega
    · refine ⟨fun a ha => ?_, ?_⟩
      · simp only [List.mem_cons, List.not_mem_nil, or_false] at ha
        rcases ha with h | h <;> subst h <;> simp <;> omega
      · simp [List.pairwise_cons] <;> omega
  · simp only [stripL_append, stripL_cons_true, stripL_nil]
    refine ((hpermh.append_right _).trans List.perm_append_comm).trans ?_
    refine List.Perm.trans ?_
      (List.Perm.append_left [(st.next + 1, [H * S, E]), (st.next + 1 + 1, [E]),
        (st.next + 1 + 1 + 1 + 4, [E]), (st.next + 1 + 1 + 1 + 4 + 1, [E]),
        (st.next + 1 + 1 + 1 + 4 + 1 + 1 + 1, [E, 4 * E]),
        (st.next + 1 + 1 + 1 + 4 + 1 + 1 + 1 + 1, [4 * E])]
        (@List.perm_append_comm _
          [(st.next + 1 + 1 + 1 + 4 + 1 + 1 + 1 + 1 + 1 + 3 + 5 * F, [4 * E, E]),
            (st.next + 1 + 1 + 1 + 4 + 1 + 1 + 1 + 1 + 1 + 3 + 5 * F + 1, [E])]
          (stripL Ah)))
    rw [← List.append_assoc]
    refine List.Perm.append_right (stripL Ah) ?_
    refine List.Perm.cons _ (List.Perm.cons _ ?_)
    exact @List.perm_append_comm _
      [(st.next + 1 + 1 + 1 + 4 + 1 + 1 + 1, [E, 4 * E]),
        (st.next + 1 + 1 + 1 + 4 + 1 + 1 + 1 + 1, [4 * E]),
        (st.next + 1 + 1 + 1 + 4 + 1 + 1 + 1 + 1 + 1 + 3 + 5 * F, [4 * E, E]),
        (st.next + 1 + 1 + 1 + 4 + 1 + 1 + 1 + 1 + 1 + 3 + 5 * F + 1, [E])]
      [(st.next + 1 + 1 + 1 + 4, [E]), (st.next + 1 + 1 + 1 + 4 + 1, [E])]
  · rw [sumP_append, hsh]
    simp [sumP]
    ring

theorem buildLayer_spec (E H S F : Nat) :
    StageSpec (buildLayer E H S F) (23 + 13 * H + 5 * F)
      (4 * H * E * S + (8 + 16 * F) * E ^ 2 + (10 + 4 * F) * E) := by
  have h1 := stageSpec_comp _ _ _ _ _ _ (buildLayerStart_spec E)
    (stageSpec_comp _ _ _ _ _ _ (buildHeads_spec E S H) (buildLayerTail_spec E H S F))
  exact stageSpec_congr _ _ _ _ _ (fun st => h1 st) (by ring) (by ring)

theorem buildLayers_spec (E H S F : Nat) :
    ∀ n : Nat, StageSpec (buildLayers E H S F n)
      ((23 + 13 * H + 5 * F) * n)
      ((4 * H * E * S + (8 + 16 * F) * E ^ 2 + (10 + 4 * F) * E) * n) := by
  intro n
  induction n with
  | zero =>
    intro st
    exact ⟨[], [], by simp [buildLayers], by simp [buildLayers], by simp [buildLayers],
      IdsIn_nil _ _, List.Perm.refl _, by simp [sumP]⟩
  | succ n ih =>
    have h := stageSpec_comp (buildLayer E H S F) (buildLayers E H S F n) _ _ _ _
      (buildLayer_spec E H S F) ih
    exact stageSpec_congr _ _ _ _ _ (fun st => h st) (by ring) (by ring)

theorem stripL_cons_false (i : Nat) (sh : List Nat)
    (rest : List (Nat × List Nat × Bool)) :
    stripL ((i, sh, false) :: rest) = stripL rest := by
  simp [stripL]

/-- What `GPT::new` builds: the allocation list `A` and the params list `P`,
with `P` a permutation of the learnable allocations, allocation ids strictly
increasing, and the total element count of `P` in closed form. -/
theorem gptNew_spec (V E T L H S F : Nat) : ∃ A P,
    (gptNew V E T L H S F).allocs = A ∧
    (gptNew V E T L H S F).params = P ∧
    List.Perm P (stripL A) ∧
    (A.map (fun a => a.1)).Pairwise (· < ·) ∧
    sumP P = V * E + T * E
      + (4 * H * E * S + (8 + 16 * F) * E ^ 2 + (10 + 4 * F) * E) * L
      + (2 * E + E * V + V) := by
  obtain ⟨Al, Pl, hal, hpl, hnl, hil, hperml, hsl⟩ := buildLayers_spec E H S F L
    { next := 0 + 1 + 1 + 1 + 1 + 1
      allocs := [] ++ [(0, [V, E], true)] ++ [(0 + 1, [T, E], true)] ++
        [(0 + 1 + 1, [T, E], false)] ++ [(0 + 1 + 1 + 1, [T, E], false)]
      params := [] ++ [(0, [V, E]), (0 + 1, [T, E])] }
  have hil2 : IdsIn Al (0 + 1 + 1 + 1 + 1 + 1)
      (0 + 1 + 1 + 1 + 1 + 1 + (23 + 13 * H + 5 * F) * L) := hil
  have hLEq : buildLayers E H S F L
      { next := 0 + 1 + 1 + 1 + 1 + 1
        allocs := [] ++ [(0, [V, E], true)] ++ [(0 + 1, [T, E], true)] ++
          [(0 + 1 + 1, [T, E], false)] ++ [(0 + 1 + 1 + 1, [T, E], false)]
        params := [] ++ [(0, [V, E]), (0 + 1, [T, E])] } =
      { next := 0 + 1 + 1 + 1 + 1 + 1 + (23 + 13 * H + 5 * F) * L
        allocs := ([] ++ [(0, [V, E], true)] ++ [(0 + 1, [T, E], true)] ++
          [(0 + 1 + 1, [T, E], false)] ++ [(0 + 1 + 1 + 1, [T, E], false)]) ++ Al
        params := ([] ++ [(0, [V, E]), (0 + 1, [T, E])]) ++ Pl } :=
    BuildSt.ext3 _ _ hnl hal hpl
  refine ⟨[(0, [V, E], true), (0 + 1, [T, E], true), (0 + 1 + 1, [T, E], false),
      (0 + 1 + 1 + 1, [T, E], false)] ++ Al ++
      [(0 + 1 + 1 + 1 + 1 + 1 + (23 + 13 * H + 5 * F) * L, [E], true),
        (0 + 1 + 1 + 1 + 1 + 1 + (23 + 13 * H + 5 * F) * L + 1, [E], true),
        (0 + 1 + 1 + 1 + 1 + 1 + (23 + 13 * H + 5 * F) * L + 1 + 1 + 1, [E, V], true),
        (0 + 1 + 1 + 1 + 1 + 1 + (23 + 13 * H + 5 * F) * L + 1 + 1 + 1 + 1, [V], true)],
    [(0, [V, E]), (0 + 1, [T, E])] ++ Pl ++
      [(0 + 1 + 1 + 1 + 1 + 1 + (23 + 13 * H + 5 * F) * L, [E]),
        (0 + 1 + 1 + 1 + 1 + 1 + (23 + 13 * H + 5 * F) * L + 1, [E])] ++
      [(0 + 1 + 1 + 1 + 1 + 1 + (23 + 13 * H + 5 * F) * L + 1 + 1 + 1, [E, V]),
        (0 + 1 + 1 + 1 + 1 + 1 + (23 + 13 * H + 5 * F) * L + 1 + 1 + 1 + 1, [V])],
    ?_, ?_, ?_, ?_, ?_⟩
  · simp only [gptNew, allocT, callsT]
    rw [hLEq]
    dsimp only
    simp only [List.append_assoc, List.nil_append, List.singleton_append,
      List.cons_append]
  · simp only [gptNew, allocT, callsT]
    rw [hLEq]
    dsimp only
    simp only [List.append_assoc, List.nil_append, List.singleton_append,
      List.cons_append]
  · simp only [stripL_append, stripL_cons_true, stripL_cons_false, stripL_nil]
    simp only [List.append_assoc, List.nil_append, List.singleton_append,
      List.cons_append]
    refine List.Perm.cons _ (List.Perm.cons _ ?_)
    exact hperml.append_right _
  · refine (IdsIn_append _ _ 0 (0 + 1 + 1 + 1 + 1 + 1 + (23 + 13 * H + 5 * F) * L)
      (0 + 1 + 1 + 1 + 1 + 1 + (23 + 13 * H + 5 * F) * L + 1 + 1 + 1 + 1 + 1)
      ?_ ?_ (by omega) (by omega)).2
    · refine IdsIn_append _ _ 0 (0 + 1 + 1 + 1 + 1 + 1) _ ?_ hil2 (by omega) (by omega)
      refine ⟨fun a ha => ?_, ?_⟩
      · simp only [List.mem_cons, List.not_mem_nil, or_false] at ha
        rcases ha with h | h | h | h <;> subst h <;> simp <;> omega
      · simp [List.pairwise_cons] <;> omega
    · refine ⟨fun a ha => ?_, ?_⟩
      · simp only [List.mem_cons, List.not_mem_nil, or_false] at ha
        rcases ha with h | h | h | h <;> subst h <;> simp <;> omega
      · simp [List.pairwise_cons] <;> omega
  · rw [sumP_append, sumP_append, sumP_append, hsl]
    simp [sumP]
    ring

/-- C5: `num_params` returns the exact analytic parameter count
`V*E + T*E + L*(4*H*E*S + (8+16*F)*E^2 + (10+4*F)*E) + 2*E + E*V + V`;
by definition it is the sum of the element counts of every tensor in the
parameter-id list built by `GPT::new`. -/
theorem claim_C5_num_params_formula (V E T L H S F : Nat) :
    num_params V E T L H S F =
      V * E + T * E + L * (4 * H * E * S + (8 + 16 * F) * E ^ 2 + (10 + 4 * F) * E)
        + 2 * E + E * V + V := by
  obtain ⟨A, P, hA, hP, hperm, hpw, hsum⟩ := gptNew_spec V E T L H S F
  unfold num_params
  rw [hP]
  rw [show ((P.map (fun p => p.2.prod)).sum = sumP P) from rfl, hsum]
  ring

/-- C6 as stated is false: with one layer the `params` list is not in
allocation order — the post-attention norm pair is allocated (gpt.rs
165-166) before the feed-forward weights but appended (gpt.rs 201-202)
after them.  At `V = E = T = L = H = S = 1`, `F = 0` the params list differs
from the allocation-ordered learnable list. -/
theorem claim_C6_counterexample :
    ¬ ((gptNew 1 1 1 1 1 1 0).params = stripL (gptNew 1 1 1 1 1 1 0).allocs) := by
  decide

/-- C6 amended: for every set of hyperparameters the parameter-id list
contains every learnable node exactly once — it is a permutation of the
allocation-ordered learnable-node list, and its ids have no duplicate — but
within a layer the append order differs from allocation order (hidden-stage
pairs come before the projection pair, and the post-attention norm pair
comes last). -/
theorem claim_C6_amended_every_learnable_once (V E T L H S F : Nat) :
    List.Perm (gptNew V E T L H S F).params (stripL (gptNew V E T L H S F).allocs) ∧
      ((gptNew V E T L H S F).params.map Prod.fst).Nodup := by
  obtain ⟨A, P, hA, hP, hperm, hpw, hsum⟩ := gptNew_spec V E T L H S F
  rw [hA, hP]
  refine ⟨hperm, ?_⟩
  have hmm : (stripL A).map Prod.fst = (A.filter (fun a => a.2.2)).map (fun a => a.1) := by
    simp [stripL, List.map_map]
  have hsub : List.Sublist ((stripL A).map Prod.fst) (A.map (fun a => a.1)) := by
    rw [hmm]
    exact (List.filter_sublist A).map _
  have hpw2 : ((stripL A).map Prod.fst).Pairwise (· < ·) := hpw.sublist hsub
  have hnd : ((stripL A).map Prod.fst).Nodup := hpw2.imp (fun h => Nat.ne_of_lt h)
  exact ((hperm.map Prod.fst).nodup_iff).mpr hnd

end FemtoGPT
